import Mathlib

/-!
# ExplorationTree (`generator.py`) — verified shallow embedding

This file embeds the lock-and-key exploration-tree generator in Lean 4 and
settles the specification claims about it.  The Python source is a single
module (`src/generator.py`); every definition below is translated from it:

* the two global string counters `gen_id` / `gen_key_value`;
* the node classes `GateNode`, `BranchNode`, `KeyNode` (each `__init__`
  draws a node id) and their `repr_json` projections;
* `TreeConfig` with `copy_without_keys`;
* the recursive `generate_exploration_tree`, together with its helpers
  `generate_key_node_for_gate`, `generate_node_with_branches` and
  `choose_some_keys`.

Python's mutable global counters and the mutable `TreeConfig` become explicit
state passing (`GenState`), `random.choice([True, False])` becomes an oracle
stream `rng : Nat → Bool` consumed one draw per call, and the recursion is
driven by an explicit fuel argument; totality theorems show the fuel bound
`num_gates_remaining_to_generate.toNat + 1` always suffices, which is the
termination argument of the source (the quota strictly decreases).
-/

namespace ExplorationTree

/-! ## Decimal rendering of naturals (Python's `str(n)` for `n : Nat`)

`gen_id`/`gen_key_value` build strings with `str(id_numindex)`.  We model the
decimal rendering from first principles so that its injectivity is provable.
The digit list is produced least-significant first and reversed, exactly the
usual base-10 expansion; the outer `if` matches `str(0) = "0"`. -/

/-- Base-10 digits of `n`, least significant first; the first argument is
structural fuel (`n` itself suffices, see `decDigitsAux_val`). -/
def decDigitsAux : Nat → Nat → List Nat
  | 0, _ => []
  | f + 1, n => if n = 0 then [] else n % 10 :: decDigitsAux f (n / 10)

/-- The digit characters `'0'`–`'9'`. -/
def digitChars : List Char := ['0','1','2','3','4','5','6','7','8','9']

/-- The character for a single decimal digit. -/
def digitCh (d : Nat) : Char := digitChars.getD d '0'

/-- Python's `str(n)` for a natural number `n`. -/
def natStr (n : Nat) : String :=
  if n = 0 then "0" else String.mk (((decDigitsAux n n).reverse).map digitCh)

/-- Value of a little-endian base-10 digit list. -/
def decVal : List Nat → Nat
  | [] => 0
  | d :: ds => d + 10 * decVal ds

theorem decDigitsAux_val : ∀ (f n : Nat), n ≤ f → decVal (decDigitsAux f n) = n := by
  intro f
  induction f with
  | zero => intro n hn; interval_cases n; simp [decDigitsAux, decVal]
  | succ f ih =>
    intro n hn
    by_cases h0 : n = 0
    · simp [decDigitsAux, h0, decVal]
    · have hdiv : n / 10 < n := Nat.div_lt_self (Nat.pos_of_ne_zero h0) (by omega)
      have : decVal (decDigitsAux f (n / 10)) = n / 10 := ih _ (by omega)
      simp only [decDigitsAux, h0, if_false, decVal, this]
      omega

theorem decDigitsAux_lt_ten : ∀ (f n : Nat), ∀ d ∈ decDigitsAux f n, d < 10 := by
  intro f
  induction f with
  | zero => intro n d hd; simp [decDigitsAux] at hd
  | succ f ih =>
    intro n d hd
    by_cases h0 : n = 0
    · simp [decDigitsAux, h0] at hd
    · simp only [decDigitsAux, h0, if_false, List.mem_cons] at hd
      rcases hd with h | h
      · omega
      · exact ih _ _ h

theorem digitCh_inj : ∀ d₁ < 10, ∀ d₂ < 10, digitCh d₁ = digitCh d₂ → d₁ = d₂ := by decide

theorem map_digitCh_inj : ∀ (l₁ l₂ : List Nat), (∀ d ∈ l₁, d < 10) → (∀ d ∈ l₂, d < 10) →
    l₁.map digitCh = l₂.map digitCh → l₁ = l₂ := by
  intro l₁
  induction l₁ with
  | nil => intro l₂ _ _ h; cases l₂ <;> simp_all
  | cons a as ih =>
    intro l₂ h₁ h₂ h
    cases l₂ with
    | nil => simp at h
    | cons b bs =>
      simp only [List.map_cons, List.cons.injEq] at h
      have ha : a = b := digitCh_inj a (h₁ a (by simp)) b (h₂ b (by simp)) h.1
      have hs : as = bs := ih bs (fun d hd => h₁ d (by simp [hd]))
        (fun d hd => h₂ d (by simp [hd])) h.2
      simp [ha, hs]

theorem natStr_ne_zeroStr : ∀ (m : Nat), m ≠ 0 → natStr m ≠ "0" := by
  intro m hm h
  have hdata : ((decDigitsAux m m).reverse.map digitCh) = ['0'] := by
    have := congrArg String.data h
    simpa [natStr, hm] using this
  have hne : decDigitsAux m m ≠ [] := by
    intro hc
    have := decDigitsAux_val m m le_rfl
    rw [hc] at this; simp [decVal] at this; omega
  rcases List.exists_cons_of_ne_nil hne with ⟨d, ds, hds⟩
  rw [hds] at hdata
  simp only [List.reverse_cons, List.map_append, List.map_cons, List.map_nil] at hdata
  have hlen := congrArg List.length hdata
  simp at hlen
  have hds0 : ds = [] := by
    cases ds with
    | nil => rfl
    | cons a as => simp at hlen
  rw [hds0] at hdata
  simp at hdata
  have hd10 : d < 10 := decDigitsAux_lt_ten m m d (by rw [hds]; simp)
  have hd0 : d = 0 := digitCh_inj d hd10 0 (by omega) (by simpa [digitCh, digitChars] using hdata)
  have := decDigitsAux_val m m le_rfl
  rw [hds, hds0, hd0] at this
  simp [decVal] at this
  omega

theorem natStr_inj : ∀ (n m : Nat), natStr n = natStr m → n = m := by
  have key : ∀ (n m : Nat), n ≠ 0 → m ≠ 0 → natStr n = natStr m → n = m := by
    intro n m hn hm h
    have h0 := congrArg String.data h
    simp only [natStr, hn, hm, if_false] at h0
    have h' := map_digitCh_inj (decDigitsAux n n).reverse (decDigitsAux m m).reverse
      (fun d hd => decDigitsAux_lt_ten n n d (List.mem_reverse.mp hd))
      (fun d hd => decDigitsAux_lt_ten m m d (List.mem_reverse.mp hd)) h0
    have h'' : decDigitsAux n n = decDigitsAux m m := List.reverse_injective h'
    have := decDigitsAux_val n n le_rfl
    rw [h'', decDigitsAux_val m m le_rfl] at this
    omega
  intro n m h
  by_cases hn : n = 0 <;> by_cases hm : m = 0
  · omega
  · exact absurd h.symm (by simpa [natStr, hn] using natStr_ne_zeroStr m hm)
  · exact absurd h (by simpa [natStr, hm] using natStr_ne_zeroStr n hn)
  · exact key n m hn hm h

/-! ## Generator state and the two string counters

The source keeps four module-level counters (`id_alphaindex`, `id_numindex`,
`key_alphaindex`, `key_numindex`, initialised to `0, 1, 0, 1`) and calls
`random.choice([True, False])` in `choose_some_keys`.  All of that mutable
process state becomes one explicit record threaded through every operation;
the random draws are an oracle stream `rng` consumed one bit per call. -/

/-- Python's `string.ascii_uppercase`. -/
def ascii_uppercase : List Char :=
  ['A','B','C','D','E','F','G','H','I','J','K','L','M',
   'N','O','P','Q','R','S','T','U','V','W','X','Y','Z']

/-- The process-wide mutable state of `generator.py`: the two id/key counters
plus the randomness oracle (`rng`, consumed at position `rngIdx`). -/
structure GenState where
  id_alphaindex : Nat
  id_numindex : Nat
  key_alphaindex : Nat
  key_numindex : Nat
  rng : Nat → Bool
  rngIdx : Nat

/-- The state at interpreter start: both counters at `(0, 1)`, no random
draw consumed yet. -/
def initState (rng : Nat → Bool) : GenState :=
  { id_alphaindex := 0, id_numindex := 1, key_alphaindex := 0, key_numindex := 1,
    rng := rng, rngIdx := 0 }

/-- `gen_id()`: normalise the letter index (reset to `A`, bump the numeric
suffix, once the letter passes `Z`), emit `"ID_" + letter + str(num)`, and
advance the letter index. -/
def gen_id : GenState → String × GenState
  | ⟨ia, inum, ka, knum, rng, ri⟩ =>
    let a := if 26 ≤ ia then 0 else ia
    let num := if 26 ≤ ia then inum + 1 else inum
    let generated_id := String.mk [ascii_uppercase.getD a 'A'] ++ natStr num
    ("ID_" ++ generated_id, ⟨a + 1, num, ka, knum, rng, ri⟩)

/-- `gen_key_value()`: same scheme as `gen_id` on the disjoint key counter,
with prefix `"KEY_"`. -/
def gen_key_value : GenState → String × GenState
  | ⟨ia, inum, ka, knum, rng, ri⟩ =>
    let a := if 26 ≤ ka then 0 else ka
    let num := if 26 ≤ ka then knum + 1 else knum
    let generated_key := String.mk [ascii_uppercase.getD a 'A'] ++ natStr num
    ("KEY_" ++ generated_key, ⟨ia, inum, a + 1, num, rng, ri⟩)

/-- One call of `random.choice([True, False])`: read the oracle stream and
advance it. -/
def rand_choice : GenState → Bool × GenState
  | ⟨ia, inum, ka, knum, rng, ri⟩ => (rng ri, ⟨ia, inum, ka, knum, rng, ri + 1⟩)

/-- Absolute position of the id counter: how many `gen_id` calls produced the
current state (counting from `(0, 1)`). -/
def iidx (s : GenState) : Nat := s.id_alphaindex + 26 * (s.id_numindex - 1)

/-- Absolute position of the key counter. -/
def kidx (s : GenState) : Nat := s.key_alphaindex + 26 * (s.key_numindex - 1)

/-- Reachable id-counter states: the letter index is at most 26 (it is
normalised before use) and the numeric suffix started at 1. -/
def saneId (s : GenState) : Prop := s.id_alphaindex ≤ 26 ∧ 1 ≤ s.id_numindex

/-- Reachable key-counter states. -/
def saneKey (s : GenState) : Prop := s.key_alphaindex ≤ 26 ∧ 1 ≤ s.key_numindex

/-- Closed form of the `n`-th string returned by `gen_id` in a run: the letter
cycles `A`–`Z` while the numeric suffix counts the completed cycles. -/
def idAt (n : Nat) : String :=
  "ID_" ++ (String.mk [ascii_uppercase.getD (n % 26) 'A'] ++ natStr (1 + n / 26))

/-- Closed form of the `n`-th string returned by `gen_key_value` in a run. -/
def keyValAt (n : Nat) : String :=
  "KEY_" ++ (String.mk [ascii_uppercase.getD (n % 26) 'A'] ++ natStr (1 + n / 26))

theorem gen_id_spec (s : GenState) (hs : saneId s) :
    (gen_id s).1 = idAt (iidx s) ∧ saneId (gen_id s).2 ∧ iidx (gen_id s).2 = iidx s + 1 ∧
    (gen_id s).2.key_alphaindex = s.key_alphaindex ∧
    (gen_id s).2.key_numindex = s.key_numindex ∧
    (gen_id s).2.rng = s.rng ∧ (gen_id s).2.rngIdx = s.rngIdx := by
  obtain ⟨h1, h2⟩ := hs
  by_cases h26 : 26 ≤ s.id_alphaindex
  · have ha : s.id_alphaindex = 26 := by omega
    have hmod : iidx s % 26 = 0 := by simp only [iidx, ha]; omega
    have hdiv : 1 + iidx s / 26 = s.id_numindex + 1 := by
      simp only [iidx, ha]; omega
    constructor
    · simp only [gen_id, h26, if_true, idAt, hmod, hdiv]
    · refine ⟨⟨?_, ?_⟩, ?_, ?_, ?_, ?_, ?_⟩ <;> (simp [gen_id, h26, iidx]; try omega)
  · have ha : s.id_alphaindex < 26 := by omega
    have hmod : iidx s % 26 = s.id_alphaindex := by simp only [iidx]; omega
    have hdiv : 1 + iidx s / 26 = s.id_numindex := by simp only [iidx]; omega
    constructor
    · simp only [gen_id, h26, if_false, idAt, hmod, hdiv]
    · refine ⟨⟨?_, ?_⟩, ?_, ?_, ?_, ?_, ?_⟩ <;> (simp [gen_id, h26, iidx]; try omega)

theorem gen_key_value_spec (s : GenState) (hs : saneKey s) :
    (gen_key_value s).1 = keyValAt (kidx s) ∧ saneKey (gen_key_value s).2 ∧
    kidx (gen_key_value s).2 = kidx s + 1 ∧
    (gen_key_value s).2.id_alphaindex = s.id_alphaindex ∧
    (gen_key_value s).2.id_numindex = s.id_numindex ∧
    (gen_key_value s).2.rng = s.rng ∧ (gen_key_value s).2.rngIdx = s.rngIdx := by
  obtain ⟨h1, h2⟩ := hs
  by_cases h26 : 26 ≤ s.key_alphaindex
  · have ha : s.key_alphaindex = 26 := by omega
    have hmod : kidx s % 26 = 0 := by simp only [kidx, ha]; omega
    have hdiv : 1 + kidx s / 26 = s.key_numindex + 1 := by
      simp only [kidx, ha]; omega
    constructor
    · simp only [gen_key_value, h26, if_true, keyValAt, hmod, hdiv]
    · refine ⟨⟨?_, ?_⟩, ?_, ?_, ?_, ?_, ?_⟩ <;> (simp [gen_key_value, h26, kidx]; try omega)
  · have ha : s.key_alphaindex < 26 := by omega
    have hmod : kidx s % 26 = s.key_alphaindex := by simp only [kidx]; omega
    have hdiv : 1 + kidx s / 26 = s.key_numindex := by simp only [kidx]; omega
    constructor
    · simp only [gen_key_value, h26, if_false, keyValAt, hmod, hdiv]
    · refine ⟨⟨?_, ?_⟩, ?_, ?_, ?_, ?_, ?_⟩ <;> (simp [gen_key_value, h26, kidx]; try omega)

theorem gen_id_keyCounters (s : GenState) :
    (gen_id s).2.key_alphaindex = s.key_alphaindex ∧
    (gen_id s).2.key_numindex = s.key_numindex ∧
    (gen_id s).2.rng = s.rng := by
  constructor
  · simp [gen_id]
  · constructor <;> simp [gen_id]

theorem letter_getD_inj : ∀ a < 26, ∀ b < 26,
    ascii_uppercase.getD a 'A' = ascii_uppercase.getD b 'A' → a = b := by decide

theorem idAt_data (n : Nat) :
    (idAt n).data = 'I' :: 'D' :: '_' ::
      ascii_uppercase.getD (n % 26) 'A' :: (natStr (1 + n / 26)).data := by
  simp [idAt, String.data_append]

theorem keyValAt_data (n : Nat) :
    (keyValAt n).data = 'K' :: 'E' :: 'Y' :: '_' ::
      ascii_uppercase.getD (n % 26) 'A' :: (natStr (1 + n / 26)).data := by
  simp [keyValAt, String.data_append]

theorem idAt_inj : ∀ (n m : Nat), idAt n = idAt m → n = m := by
  intro n m h
  have h0 := congrArg String.data h
  rw [idAt_data, idAt_data] at h0
  simp only [List.cons.injEq, true_and] at h0
  have hmod : n % 26 = m % 26 :=
    letter_getD_inj _ (Nat.mod_lt _ (by omega)) _ (Nat.mod_lt _ (by omega)) h0.1
  have hdiv : 1 + n / 26 = 1 + m / 26 := natStr_inj _ _ (String.ext h0.2)
  omega

theorem keyValAt_inj : ∀ (n m : Nat), keyValAt n = keyValAt m → n = m := by
  intro n m h
  have h0 := congrArg String.data h
  rw [keyValAt_data, keyValAt_data] at h0
  simp only [List.cons.injEq, true_and] at h0
  have hmod : n % 26 = m % 26 :=
    letter_getD_inj _ (Nat.mod_lt _ (by omega)) _ (Nat.mod_lt _ (by omega)) h0.1
  have hdiv : 1 + n / 26 = 1 + m / 26 := natStr_inj _ _ (String.ext h0.2)
  omega

theorem idAt_ne_keyValAt (n m : Nat) : idAt n ≠ keyValAt m := by
  intro h
  have h0 := congrArg String.data h
  rw [idAt_data, keyValAt_data] at h0
  simp at h0

theorem exit_ne_keyValAt (m : Nat) : "EXIT" ≠ keyValAt m := by
  intro h
  have h0 := congrArg String.data h
  rw [keyValAt_data] at h0
  simp at h0

/-! ## The node model

`GateNode`, `BranchNode` and `KeyNode` become one inductive; each Python
constructor draws a node id via `gen_id`, so the Lean constructors of record
values are paired with state-passing creation functions below. -/

/-- An exploration node: a locked gate guarding a destination sub-tree, a
branching point, or a collectable key. -/
inductive Node where
  | gate (node_id : String) (destination : Node) (requirements : List String)
  | branch (node_id : String) (paths : List Node)
  | key (node_id : String) (key_value : String)

/-- `GateNode.__init__`: draw a node id. -/
def GateNode (destination : Node) (requirements : List String) (st : GenState) :
    Node × GenState :=
  let (i, st') := gen_id st
  (.gate i destination requirements, st')

/-- `BranchNode.__init__`: draw a node id. -/
def BranchNode (paths : List Node) (st : GenState) : Node × GenState :=
  let (i, st') := gen_id st
  (.branch i paths, st')

/-- `KeyNode.__init__`: draw a node id. -/
def KeyNode (key_value : String) (st : GenState) : Node × GenState :=
  let (i, st') := gen_id st
  (.key i key_value, st')

/-- `GateNode.addRequirement` (appends to the mutable requirement list; a
functional update here).  On non-gate nodes Python would raise; the source
only ever calls it on the gate just constructed. -/
def addRequirement : Node → String → Node
  | .gate i d reqs, v => .gate i d (reqs ++ [v])
  | n, _ => n

/-! ## Generation engine -/

/-- `TreeConfig`: the recursion-scoped mutable context. -/
structure TreeConfig where
  total_num_gates_to_generate : Int
  num_gates_remaining_to_generate : Int
  keys_remaining_to_place : List Node

/-- `TreeConfig.__init__(total)`: both counters start at `total`, no pending
keys. -/
def TreeConfig.pyInit (total : Int) : TreeConfig :=
  ⟨total, total, []⟩

/-- `TreeConfig.copy_without_keys`: a fresh `TreeConfig` built from the
*remaining* gate count, with an empty pending-key list. -/
def TreeConfig.copy_without_keys (c : TreeConfig) : TreeConfig :=
  TreeConfig.pyInit c.num_gates_remaining_to_generate

/-- `generate_key_node_for_gate`: draw a key value, append it to the gate's
requirements, and build the matching `KeyNode`.  Returns the updated gate
(the source mutates it in place) together with the new key node. -/
def generate_key_node_for_gate (gate_node : Node) (st : GenState) :
    Node × Node × GenState :=
  let (key_value, st1) := gen_key_value st
  let gate' := addRequirement gate_node key_value
  let (key_node, st2) := KeyNode key_value st1
  (gate', key_node, st2)

/-- `generate_node_with_branches`: wrap two or more branches in a fresh
`BranchNode`, return a single branch unwrapped; `branches[0]` on an empty
list raises `IndexError`, modelled as `none` (never reached: both call sites
pass non-empty lists). -/
def generate_node_with_branches (branches : List Node) (st : GenState) :
    Option (Node × GenState) :=
  if branches.length > 1 then
    some (BranchNode branches st)
  else
    match branches with
    | [] => none
    | b :: _ => some (b, st)

/-- `choose_some_keys` plus the list comprehension that follows it in
`generate_exploration_tree`: one `random.choice([True, False])` draw per
pending key, in list order; the chosen keys (`True` draws) are placed
downstream and `[key for key in ... if key not in keys_to_place]` keeps
exactly the unchosen ones — Python's `in` compares object identity there and
`keys_remaining_to_place` never holds the same object twice (each entry is a
freshly constructed `KeyNode`), so choosing and keeping split on the drawn
booleans. -/
def choose_some_keys_split : List Node → GenState → (List Node × List Node) × GenState
  | [], st => (([], []), st)
  | k :: ks, st =>
    let (b, st1) := rand_choice st
    let ((cs, rs), st2) := choose_some_keys_split ks st1
    (if b then (k :: cs, rs) else (cs, k :: rs), st2)

/-- The chosen sub-list alone, as returned by the source's
`choose_some_keys(tree_config)`. -/
def choose_some_keys (keys : List Node) (st : GenState) : List Node × GenState :=
  let ((cs, _), st') := choose_some_keys_split keys st
  (cs, st')

/-- The `for key in keys_to_place:` loop: each chosen key becomes the
destination of a recursively generated sub-tree, generated with
`tree_config.copy_without_keys()` (a fresh quota snapshot, no pending keys).
The recursive generator is passed in as `g`, so this is plain structural
recursion on the list. -/
def goList (g : Node → TreeConfig → GenState → Option (Node × GenState)) :
    List Node → TreeConfig → GenState → Option (List Node × GenState)
  | [], _, st => some ([], st)
  | k :: ks, cfg, st =>
    match g k cfg.copy_without_keys st with
    | none => none
    | some (t, st') =>
      match goList g ks cfg st' with
      | none => none
      | some (ts, st'') => some (t :: ts, st'')

/-- `generate_exploration_tree`, driven by explicit fuel (one unit per pass
through the `gates remaining > 0` branch; the totality theorems show
`num_gates_remaining_to_generate.toNat + 1` always suffices, mirroring the
source's termination argument). -/
def genTreeFuel : Nat → Node → TreeConfig → GenState → Option (Node × GenState)
  | 0 => fun _ _ _ => none
  | fuel + 1 => fun destination_tree tree_config st =>
    if tree_config.num_gates_remaining_to_generate ≤ 0 then
      -- base case: place the pending keys and the destination off this node
      -- (the source also clears `keys_remaining_to_place` here; nothing reads
      -- the config after this return, so the mutation has no observable effect)
      generate_node_with_branches
        (tree_config.keys_remaining_to_place ++ [destination_tree]) st
    else
      -- gate separating the destination sub-tree from the rest of the tree
      let (gate0, st1) := GateNode destination_tree [] st
      let (gate_node, key_node, st2) := generate_key_node_for_gate gate0 st1
      -- quota decrement and pending-key append, then the downstream choice
      let pending := tree_config.keys_remaining_to_place ++ [key_node]
      let ((keys_to_place, keys_kept), st3) := choose_some_keys_split pending st2
      let cfg' : TreeConfig :=
        ⟨tree_config.total_num_gates_to_generate,
         tree_config.num_gates_remaining_to_generate - 1, keys_kept⟩
      match goList (genTreeFuel fuel) keys_to_place cfg' st3 with
      | none => none
      | some (downstream, st4) =>
        match generate_node_with_branches (gate_node :: downstream) st4 with
        | none => none
        | some (current_node, st5) =>
          -- generate the rest of the tree between origin and current node
          genTreeFuel fuel current_node cfg' st5

/-- `generate_exploration_tree(destination_tree, tree_config)`: run the
fuelled recursion with the exact bound the quota argument guarantees. -/
def generate_exploration_tree (destination_tree : Node) (tree_config : TreeConfig)
    (st : GenState) : Option (Node × GenState) :=
  genTreeFuel (tree_config.num_gates_remaining_to_generate.toNat + 1)
    destination_tree tree_config st

/-- The module's entry code: `exit_node = KeyNode("EXIT")`,
`tree_config = TreeConfig(gateCount)` (the source hardcodes 3),
`generate_exploration_tree(exit_node, tree_config)`. -/
def runMain (gateCount : Int) (rng : Nat → Bool) : Option (Node × GenState) :=
  let (exit_node, st1) := KeyNode "EXIT" (initState rng)
  generate_exploration_tree exit_node (TreeConfig.pyInit gateCount) st1

/-- The all-`False` randomness oracle: "downstream placement always false". -/
def constFalse : Nat → Bool := fun _ => false

/-- The all-`True` randomness oracle: every pending key is placed downstream
at every opportunity. -/
def constTrue : Nat → Bool := fun _ => true

/-! ## Tree measurements

All structural claims are phrased over `nodesOf t`, the list of every node in
`t` (the node itself, gate destinations, branch paths, recursively). -/

mutual

/-- Every node of the tree: the root, then all nodes of its children. -/
def nodesOf : Node → List Node
  | .gate i d r => .gate i d r :: nodesOf d
  | .branch i ps => .branch i ps :: nodesOfList ps
  | .key i v => [.key i v]

/-- All nodes of a list of trees, in order. -/
def nodesOfList : List Node → List Node
  | [] => []
  | t :: ts => nodesOf t ++ nodesOfList ts

end

/-- Is this node a `GateNode`? -/
def isGateB : Node → Bool
  | .gate _ _ _ => true
  | _ => false

/-- The key value of a `KeyNode`. -/
def keyVal? : Node → Option String
  | .key _ v => some v
  | _ => none

/-- The requirement list of a `GateNode` (empty for other nodes). -/
def reqsOf : Node → List String
  | .gate _ _ r => r
  | _ => []

/-- Number of `GateNode`s in the tree. -/
def countGates (t : Node) : Nat := ((nodesOf t).filter isGateB).length

/-- Number of `GateNode`s across a list of trees. -/
def countGatesList (l : List Node) : Nat := ((nodesOfList l).filter isGateB).length

/-- The `key_value` of every `KeyNode` in the tree (with multiplicity). -/
def keyVals (t : Node) : List String := (nodesOf t).filterMap keyVal?

/-- The `key_value`s across a list of trees. -/
def keyValsList (l : List Node) : List String := (nodesOfList l).filterMap keyVal?

/-- Every gate requirement in the tree (with multiplicity). -/
def reqVals (t : Node) : List String := ((nodesOf t).map reqsOf).flatten

/-- Gate requirements across a list of trees. -/
def reqValsList (l : List Node) : List String := ((nodesOfList l).map reqsOf).flatten

/-- Key/gate locality: no gate in the tree requires a key value that occurs as
a `KeyNode` inside the gate's own destination sub-tree. -/
def gateLocal (t : Node) : Prop :=
  ∀ n ∈ nodesOf t, ∀ i d r, n = Node.gate i d r → ∀ v ∈ r, v ∉ keyVals d

/-- Every gate in the tree has exactly one requirement. -/
def reqsOne (t : Node) : Prop :=
  ∀ n ∈ nodesOf t, ∀ i d r, n = Node.gate i d r → r.length = 1

/-- Branch collapsing invariant: every `BranchNode` in the tree has at least
two paths. -/
def branchesOk (t : Node) : Prop :=
  ∀ n ∈ nodesOf t, ∀ i ps, n = Node.branch i ps → 2 ≤ ps.length

theorem nodesOfList_append (l₁ l₂ : List Node) :
    nodesOfList (l₁ ++ l₂) = nodesOfList l₁ ++ nodesOfList l₂ := by
  induction l₁ with
  | nil => simp [nodesOfList]
  | cons t ts ih => simp [nodesOfList, ih]

/-! ## Serialization (`repr_json` + `NodeEncoder`)

`json.dumps(tree, cls=NodeEncoder)` recursively replaces every node by its
`repr_json()` dictionary; dictionaries keep insertion order, so the emitted
objects are ordered field lists.  `node_id` is not part of any projection. -/

/-- The JSON documents the encoder can produce here. -/
inductive JValue where
  | str (s : String)
  | arr (elems : List JValue)
  | obj (fields : List (String × JValue))

mutual

/-- `repr_json` under recursive `NodeEncoder` expansion: Gate projects
`{node_type, destination, requirements}`, Branch `{node_type, paths}` and
Key `{node_type, key_value}`. -/
def repr_json : Node → JValue
  | .gate _ d r =>
    .obj [("node_type", .str "GATE"), ("destination", repr_json d),
          ("requirements", .arr (r.map .str))]
  | .branch _ ps => .obj [("node_type", .str "BRANCH"), ("paths", .arr (repr_jsonList ps))]
  | .key _ v => .obj [("node_type", .str "KEY"), ("key_value", .str v)]

/-- Encoder expansion of a list of nodes. -/
def repr_jsonList : List Node → List JValue
  | [] => []
  | t :: ts => repr_json t :: repr_jsonList ts

end

/-! ## Totality of the generator -/

theorem generate_node_with_branches_isSome (l : List Node) (st : GenState) (h : l ≠ []) :
    ∃ p, generate_node_with_branches l st = some p := by
  match l with
  | [] => exact absurd rfl h
  | b :: bs =>
    by_cases h1 : (b :: bs).length > 1
    · exact ⟨BranchNode (b :: bs) st, by simp only [generate_node_with_branches, h1, if_true]⟩
    · exact ⟨(b, st), by simp only [generate_node_with_branches, h1, if_false]⟩

theorem genTreeFuel_total : ∀ (fuel : Nat),
    (∀ (dest : Node) (cfg : TreeConfig) (st : GenState),
        cfg.num_gates_remaining_to_generate.toNat < fuel →
        ∃ p, genTreeFuel fuel dest cfg st = some p) ∧
    (∀ (keys : List Node) (cfg : TreeConfig) (st : GenState),
        cfg.num_gates_remaining_to_generate.toNat < fuel →
        ∃ p, goList (genTreeFuel fuel) keys cfg st = some p) := by
  intro fuel
  induction fuel with
  | zero =>
    exact ⟨fun _ _ _ h => absurd h (by omega), fun _ _ _ h => absurd h (by omega)⟩
  | succ fuel ih =>
    obtain ⟨ihT, _⟩ := ih
    have treeCase : ∀ (dest : Node) (cfg : TreeConfig) (st : GenState),
        cfg.num_gates_remaining_to_generate.toNat < fuel + 1 →
        ∃ p, genTreeFuel (fuel + 1) dest cfg st = some p := by
      intro dest cfg st hbound
      by_cases hrem : cfg.num_gates_remaining_to_generate ≤ 0
      · simp only [genTreeFuel, hrem, if_true]
        exact generate_node_with_branches_isSome _ _ (by simp)
      · rcases hA : GateNode dest [] st with ⟨gate0, st1⟩
        rcases hB : generate_key_node_for_gate gate0 st1 with ⟨gate_node, key_node, st2⟩
        rcases hC : choose_some_keys_split (cfg.keys_remaining_to_place ++ [key_node]) st2
          with ⟨⟨chosen, kept⟩, st3⟩
        simp only [genTreeFuel, hrem, if_false, hA, hB, hC]
        have hlist : ∀ (keys : List Node) (cfg₀ : TreeConfig) (st₀ : GenState),
            cfg₀.num_gates_remaining_to_generate.toNat < fuel →
            ∃ p, goList (genTreeFuel fuel) keys cfg₀ st₀ = some p := by
          intro keys
          induction keys with
          | nil => exact fun cfg₀ st₀ _ => ⟨([], st₀), rfl⟩
          | cons k ks ihk =>
            intro cfg₀ st₀ hb
            obtain ⟨⟨t, st'⟩, ht⟩ := ihT k cfg₀.copy_without_keys st₀
              (by simpa [TreeConfig.copy_without_keys, TreeConfig.pyInit] using hb)
            obtain ⟨⟨ts, st''⟩, hts⟩ := ihk cfg₀ st' hb
            exact ⟨(t :: ts, st''), by simp only [goList, ht, hts]⟩
        obtain ⟨⟨subs, st4⟩, hsubs⟩ :=
          hlist chosen ⟨cfg.total_num_gates_to_generate,
            cfg.num_gates_remaining_to_generate - 1, kept⟩ st3 (by simp; omega)
        simp only [hsubs]
        obtain ⟨⟨cur, st5⟩, hcur⟩ :=
          generate_node_with_branches_isSome (gate_node :: subs) st4 (by simp)
        simp only [hcur]
        exact ihT cur _ st5 (by simp; omega)
    refine ⟨treeCase, ?_⟩
    intro keys
    induction keys with
    | nil => exact fun cfg st _ => ⟨([], st), rfl⟩
    | cons k ks ihk =>
      intro cfg st hb
      obtain ⟨⟨t, st'⟩, ht⟩ := treeCase k cfg.copy_without_keys st
        (by simpa [TreeConfig.copy_without_keys, TreeConfig.pyInit] using hb)
      obtain ⟨⟨ts, st''⟩, hts⟩ := ihk cfg st' hb
      exact ⟨(t :: ts, st''), by simp only [goList, ht, hts]⟩

/-- **C3.** `generate_exploration_tree` terminates for every integer quota:
any fuel exceeding the remaining-gate count reaches the base case (the quota
strictly decreases through the "gates remaining" branch), and the wrapper,
which runs with fuel `quota.toNat + 1`, therefore returns a tree for every
destination, every configuration (any integer quota, non-negative or not)
and every state. -/
theorem claim_C3 :
    (∀ (fuel : Nat) (dest : Node) (cfg : TreeConfig) (st : GenState),
        cfg.num_gates_remaining_to_generate.toNat < fuel →
        ∃ p, genTreeFuel fuel dest cfg st = some p) ∧
    (∀ (dest : Node) (cfg : TreeConfig) (st : GenState),
        ∃ p, generate_exploration_tree dest cfg st = some p) := by
  constructor
  · exact fun fuel => (genTreeFuel_total fuel).1
  · intro dest cfg st
    exact (genTreeFuel_total _).1 dest cfg st (by omega)

/-- Witness for C3: a concrete application of the fuelled half. -/
theorem claim_C3_witness :
    ∃ p, genTreeFuel 1 (Node.key "X1" "EXIT") (TreeConfig.pyInit 0)
      (initState constFalse) = some p :=
  claim_C3.1 1 (Node.key "X1" "EXIT") (TreeConfig.pyInit 0) (initState constFalse)
    (by norm_num [TreeConfig.pyInit])

/-! ## The zero / negative quota claims -/

/-- **C7.** With a non-positive quota the quota check `<= 0` fires at once:
no key was ever created, the pending list is empty, and after branch
collapsing the destination node itself comes back (state untouched).  In
particular every negative quota behaves exactly like zero. -/
theorem claim_C7 (q : Int) (hq : q ≤ 0) (dest : Node) (st : GenState) :
    generate_exploration_tree dest (TreeConfig.pyInit q) st = some (dest, st) ∧
    generate_exploration_tree dest (TreeConfig.pyInit q) st =
      generate_exploration_tree dest (TreeConfig.pyInit 0) st := by
  have hto : q.toNat = 0 := by omega
  have h0 : ∀ (r : Int), r ≤ 0 →
      generate_exploration_tree dest (TreeConfig.pyInit r) st = some (dest, st) := by
    intro r hr
    have : r.toNat = 0 := by omega
    simp only [generate_exploration_tree, TreeConfig.pyInit, this, genTreeFuel, hr, if_true]
    simp [generate_node_with_branches]
  exact ⟨h0 q hq, by rw [h0 q hq, h0 0 le_rfl]⟩

/-- Witness for C7 at the concrete quota `-5`. -/
theorem claim_C7_witness :
    generate_exploration_tree (Node.key "ID_A1" "EXIT") (TreeConfig.pyInit (-5))
      (initState constFalse) = some (Node.key "ID_A1" "EXIT", initState constFalse) :=
  (claim_C7 (-5) (by norm_num) (Node.key "ID_A1" "EXIT") (initState constFalse)).1

/-! ## Concrete scenario claims -/

/-- **C8.** Gate count 1, downstream placement always false: the run builds
the gate `ID_B1` guarding the EXIT key node with sole requirement
`"KEY_A1"`, and the root is a `BranchNode` whose children are the newly
created key node (`ID_C1`, carrying exactly that value) and the gate. -/
theorem claim_C8 :
    (runMain 1 constFalse).map Prod.fst =
      some (.branch "ID_D1" [.key "ID_C1" "KEY_A1",
        .gate "ID_B1" (.key "ID_A1" "EXIT") ["KEY_A1"]]) := rfl

/-- **C4 (amended), counterexample part.** With gate count 0 the serialized
output is a single two-field object, but its field names are the source's
`node_type` / `key_value`, not the claimed `type` / `keyValue`. -/
theorem claim_C4_counterexample :
    (runMain 0 constFalse).map (fun p => repr_json p.1) =
      some (.obj [("node_type", .str "KEY"), ("key_value", .str "EXIT")]) ∧
    (runMain 0 constFalse).map (fun p => repr_json p.1) ≠
      some (.obj [("type", .str "KEY"), ("keyValue", .str "EXIT")]) := by
  have h : runMain 0 constFalse =
      some (.key "ID_A1" "EXIT", ⟨1, 1, 0, 1, constFalse, 0⟩) := rfl
  rw [h]
  constructor
  · simp [repr_json]
  · simp [repr_json]

/-- **C4 (amended).** With gate count 0 (any randomness oracle) the
serialized output is exactly the destination key node's projection
`{"node_type": "KEY", "key_value": "EXIT"}`: one object, exactly those two
fields, no id field, no gates, no branches. -/
theorem claim_C4 (rng : Nat → Bool) :
    (runMain 0 rng).map (fun p => repr_json p.1) =
      some (.obj [("node_type", .str "KEY"), ("key_value", .str "EXIT")]) := by
  have h : runMain 0 rng = some (.key "ID_A1" "EXIT", ⟨1, 1, 0, 1, rng, 0⟩) := rfl
  rw [h]
  simp [repr_json]

/-! ## The identifier sequences (claim C9)

`gen_id` reads and writes only the id counter and `gen_key_value` only the
key counter, so within one run the `n`-th call of either function sees its
counter at absolute position `n` regardless of how the two interleave; the
iterated sequences below are therefore exactly the per-function call
sequences of a run. -/

/-- State after `n` consecutive `gen_id` calls from the initial state. -/
def idIter (rng : Nat → Bool) : Nat → GenState
  | 0 => initState rng
  | n + 1 => (gen_id (idIter rng n)).2

/-- The string returned by the `n`-th `gen_id` call of a run (0-indexed). -/
def idSeq (rng : Nat → Bool) (n : Nat) : String := (gen_id (idIter rng n)).1

/-- State after `n` consecutive `gen_key_value` calls from the initial
state. -/
def keyIter (rng : Nat → Bool) : Nat → GenState
  | 0 => initState rng
  | n + 1 => (gen_key_value (keyIter rng n)).2

/-- The string returned by the `n`-th `gen_key_value` call of a run. -/
def keySeq (rng : Nat → Bool) (n : Nat) : String := (gen_key_value (keyIter rng n)).1

theorem idIter_sane (rng : Nat → Bool) : ∀ n : Nat,
    saneId (idIter rng n) ∧ iidx (idIter rng n) = n := by
  intro n
  induction n with
  | zero => exact ⟨⟨by norm_num [idIter, initState], by norm_num [idIter, initState]⟩,
      by norm_num [idIter, initState, iidx]⟩
  | succ n ih =>
    obtain ⟨hs, hi⟩ := ih
    obtain ⟨-, hs', hi', -⟩ := gen_id_spec (idIter rng n) hs
    exact ⟨hs', by simp [idIter, hi', hi]⟩

theorem idSeq_eq (rng : Nat → Bool) (n : Nat) : idSeq rng n = idAt n := by
  obtain ⟨hs, hi⟩ := idIter_sane rng n
  have := (gen_id_spec (idIter rng n) hs).1
  rw [idSeq, this, hi]

theorem keyIter_sane (rng : Nat → Bool) : ∀ n : Nat,
    saneKey (keyIter rng n) ∧ kidx (keyIter rng n) = n := by
  intro n
  induction n with
  | zero => exact ⟨⟨by norm_num [keyIter, initState], by norm_num [keyIter, initState]⟩,
      by norm_num [keyIter, initState, kidx]⟩
  | succ n ih =>
    obtain ⟨hs, hi⟩ := ih
    obtain ⟨-, hs', hi', -⟩ := gen_key_value_spec (keyIter rng n) hs
    exact ⟨hs', by simp [keyIter, hi', hi]⟩

theorem keySeq_eq (rng : Nat → Bool) (n : Nat) : keySeq rng n = keyValAt n := by
  obtain ⟨hs, hi⟩ := keyIter_sane rng n
  have := (gen_key_value_spec (keyIter rng n) hs).1
  rw [keySeq, this, hi]

/-- **C9.** Within one run no two `gen_id` calls return the same string, no
two `gen_key_value` calls return the same string, and the two sequences never
collide (disjoint `"ID_"` / `"KEY_"` prefixes); the `n`-th value of either
sequence is its prefix, then the letter `A`–`Z` cycling with period 26, then
the numeric suffix `1 + n / 26`, which increments exactly when the letter
resets to `A`. -/
theorem claim_C9 (rng : Nat → Bool) :
    (∀ m n : Nat, m ≠ n → idSeq rng m ≠ idSeq rng n) ∧
    (∀ m n : Nat, m ≠ n → keySeq rng m ≠ keySeq rng n) ∧
    (∀ m n : Nat, idSeq rng m ≠ keySeq rng n) ∧
    (∀ n : Nat, idSeq rng n =
      "ID_" ++ (String.mk [ascii_uppercase.getD (n % 26) 'A'] ++ natStr (1 + n / 26))) ∧
    (∀ n : Nat, keySeq rng n =
      "KEY_" ++ (String.mk [ascii_uppercase.getD (n % 26) 'A'] ++ natStr (1 + n / 26))) := by
  refine ⟨?_, ?_, ?_, ?_, ?_⟩
  · intro m n hmn h
    rw [idSeq_eq, idSeq_eq] at h
    exact hmn (idAt_inj m n h)
  · intro m n hmn h
    rw [keySeq_eq, keySeq_eq] at h
    exact hmn (keyValAt_inj m n h)
  · intro m n h
    rw [idSeq_eq, keySeq_eq] at h
    exact idAt_ne_keyValAt m n h
  · exact fun n => idSeq_eq rng n
  · exact fun n => keySeq_eq rng n

/-- Witness for C9: concrete distinct calls, including one full letter cycle
(`0` and `27` share the letter `A` but differ in the numeric suffix). -/
theorem claim_C9_witness :
    idSeq constFalse 0 ≠ idSeq constFalse 27 ∧
    keySeq constFalse 0 ≠ keySeq constFalse 1 ∧
    idSeq constFalse 3 ≠ keySeq constFalse 3 :=
  ⟨(claim_C9 constFalse).1 0 27 (by norm_num),
   (claim_C9 constFalse).2.1 0 1 (by norm_num),
   (claim_C9 constFalse).2.2.1 3 3⟩

/-! ## `KeyNode.__repr__` (claim C10)

`KeyNode.__repr__` executes `str(self.reprJson())`.  Attribute lookup on the
instance consults the instance attributes set by `__init__` and then the
class body; the class body of `KeyNode` defines `__init__`, `repr_json` and
`__repr__` — there is no `reprJson` — so the lookup raises `AttributeError`
before anything is called or stringified. -/

/-- The attributes `KeyNode.__init__` sets on every instance. -/
def keyNodeInstanceAttrs : List String := ["node_id", "node_type", "key_value"]

/-- The names defined in the `class KeyNode` body. -/
def keyNodeClassAttrs : List String := ["__init__", "repr_json", "__repr__"]

/-- Attribute lookup for the data-returning methods of `KeyNode`: the class
body defines exactly one, `repr_json`. -/
def keyNodeMethod : String → Option (Node → JValue)
  | "repr_json" => some repr_json
  | _ => none

/-- `KeyNode.__repr__`: look up `reprJson` on the instance and call it.  The
lookup fails (`AttributeError`), so the surrounding `str(...)` is never
reached; the successful branch would return the looked-up method's dictionary
value. -/
def keyNodeReprMethod (self : Node) : Except String JValue :=
  match keyNodeMethod "reprJson" with
  | some f => .ok (f self)
  | none => .error "AttributeError: 'KeyNode' object has no attribute 'reprJson'"

/-- **C10.** Invoking `KeyNode.__repr__` on any key node fails with an
`AttributeError` instead of producing output: the method calls `reprJson`,
which is not among the names the class defines (the defined projection method
is `repr_json`). -/
theorem claim_C10 :
    (∀ self : Node, keyNodeReprMethod self =
      Except.error "AttributeError: 'KeyNode' object has no attribute 'reprJson'") ∧
    keyNodeMethod "reprJson" = none ∧
    "reprJson" ∉ keyNodeClassAttrs ∧ "repr_json" ∈ keyNodeClassAttrs := by
  refine ⟨fun self => rfl, rfl, ?_, ?_⟩
  · intro h
    simp [keyNodeClassAttrs] at h
  · simp [keyNodeClassAttrs]

/-! ## Vocabulary for the generation invariant -/

/-- `v` cannot collide with any key value the key counter will generate from
position `m` on. -/
def valOk (m : Nat) (v : String) : Prop := ∀ j, m ≤ j → v ≠ keyValAt j

theorem valOk_mono {m m' : Nat} (h : m ≤ m') {v : String} (hv : valOk m v) : valOk m' v :=
  fun j hj => hv j (le_trans h hj)

theorem valOk_keyValAt {m j : Nat} (h : j < m) : valOk m (keyValAt j) := by
  intro j' hj' hc
  have := keyValAt_inj j j' hc
  omega

theorem valOk_exit (m : Nat) : valOk m "EXIT" := fun j _ => exit_ne_keyValAt j

/-- The key values generated while the key counter moves from `a` to `b`. -/
def newKeys (a b : Nat) : List String := (List.range' a (b - a)).map keyValAt

theorem newKeys_self (a : Nat) : newKeys a a = [] := by simp [newKeys]

theorem newKeys_nodup (a b : Nat) : (newKeys a b).Nodup :=
  (List.nodup_range' a (b - a)).map (fun x y h => keyValAt_inj x y h)

theorem mem_newKeys {v : String} {a b : Nat} :
    v ∈ newKeys a b ↔ ∃ j, a ≤ j ∧ j < b ∧ v = keyValAt j := by
  simp only [newKeys, List.mem_map, List.mem_range', one_mul]
  constructor
  · rintro ⟨j, ⟨i, hi, rfl⟩, rfl⟩
    exact ⟨a + i, by omega, by omega, rfl⟩
  · rintro ⟨j, h1, h2, rfl⟩
    exact ⟨j, ⟨j - a, by omega, by omega⟩, rfl⟩

theorem newKeys_append {a b c : Nat} (h1 : a ≤ b) (h2 : b ≤ c) :
    newKeys a b ++ newKeys b c = newKeys a c := by
  have h := List.range'_append a (b - a) (c - b) 1
  simp only [one_mul] at h
  have hb : a + (b - a) = b := by omega
  rw [hb] at h
  have hc : c - b + (b - a) = c - a := by omega
  rw [hc] at h
  rw [newKeys, newKeys, newKeys, ← List.map_append, h]

theorem exit_not_mem_newKeys (a b : Nat) : "EXIT" ∉ newKeys a b := by
  rw [mem_newKeys]
  rintro ⟨j, -, -, hj⟩
  exact exit_ne_keyValAt j hj

theorem valOk_newKeys {m : Nat} {v : String} (hv : valOk m v) (b : Nat) :
    v ∉ newKeys m b := by
  rw [mem_newKeys]
  rintro ⟨j, h1, -, rfl⟩
  exact hv j h1 rfl

/-! ## Constructor equations for the measures -/

theorem keyVals_gate (i : String) (d : Node) (r : List String) :
    keyVals (.gate i d r) = keyVals d := by
  simp [keyVals, nodesOf, keyVal?]

theorem keyVals_branch (i : String) (ps : List Node) :
    keyVals (.branch i ps) = keyValsList ps := by
  simp [keyVals, keyValsList, nodesOf, keyVal?]

theorem keyVals_key (i v : String) : keyVals (.key i v) = [v] := by
  simp [keyVals, nodesOf, keyVal?]

theorem keyValsList_nil : keyValsList [] = [] := by simp [keyValsList, nodesOfList]

theorem keyValsList_cons (t : Node) (ts : List Node) :
    keyValsList (t :: ts) = keyVals t ++ keyValsList ts := by
  simp [keyValsList, keyVals, nodesOfList, List.filterMap_append]

theorem keyValsList_append (l₁ l₂ : List Node) :
    keyValsList (l₁ ++ l₂) = keyValsList l₁ ++ keyValsList l₂ := by
  simp [keyValsList, nodesOfList_append, List.filterMap_append]

theorem reqVals_gate (i : String) (d : Node) (r : List String) :
    reqVals (.gate i d r) = r ++ reqVals d := by
  simp [reqVals, nodesOf, reqsOf]

theorem reqVals_branch (i : String) (ps : List Node) :
    reqVals (.branch i ps) = reqValsList ps := by
  simp [reqVals, reqValsList, nodesOf, reqsOf]

theorem reqVals_key (i v : String) : reqVals (.key i v) = [] := by
  simp [reqVals, nodesOf, reqsOf]

theorem reqValsList_nil : reqValsList [] = [] := by simp [reqValsList, nodesOfList]

theorem reqValsList_cons (t : Node) (ts : List Node) :
    reqValsList (t :: ts) = reqVals t ++ reqValsList ts := by
  simp [reqValsList, reqVals, nodesOfList]

theorem reqValsList_append (l₁ l₂ : List Node) :
    reqValsList (l₁ ++ l₂) = reqValsList l₁ ++ reqValsList l₂ := by
  simp [reqValsList, nodesOfList_append]

theorem countGates_gate (i : String) (d : Node) (r : List String) :
    countGates (.gate i d r) = 1 + countGates d := by
  simp [countGates, nodesOf, isGateB, List.filter_cons]
  omega

theorem countGates_branch (i : String) (ps : List Node) :
    countGates (.branch i ps) = countGatesList ps := by
  simp [countGates, countGatesList, nodesOf, isGateB, List.filter_cons]

theorem countGates_key (i v : String) : countGates (.key i v) = 0 := by
  simp [countGates, nodesOf, isGateB, List.filter_cons]

theorem countGatesList_nil : countGatesList [] = 0 := by simp [countGatesList, nodesOfList]

theorem countGatesList_cons (t : Node) (ts : List Node) :
    countGatesList (t :: ts) = countGates t + countGatesList ts := by
  simp [countGatesList, countGates, nodesOfList, List.filter_append]

theorem countGatesList_append (l₁ l₂ : List Node) :
    countGatesList (l₁ ++ l₂) = countGatesList l₁ + countGatesList l₂ := by
  simp [countGatesList, nodesOfList_append, List.filter_append]

theorem mem_nodesOfList {n : Node} {l : List Node} :
    n ∈ nodesOfList l ↔ ∃ t ∈ l, n ∈ nodesOf t := by
  induction l with
  | nil => simp [nodesOfList]
  | cons t ts ih => simp [nodesOfList, ih]

/-! ## Constructor rules for the structural predicates -/

theorem gateLocal_key (i v : String) : gateLocal (.key i v) := by
  intro n hn i' d r hg
  simp only [nodesOf, List.mem_singleton] at hn
  subst hn
  simp at hg

theorem gateLocal_gate {d : Node} {r : List String}
    (h1 : ∀ v ∈ r, v ∉ keyVals d) (h2 : gateLocal d) (i : String) :
    gateLocal (.gate i d r) := by
  intro n hn i' d' r' hg v hv
  simp only [nodesOf, List.mem_cons] at hn
  rcases hn with h | h
  · subst h
    simp only [Node.gate.injEq] at hg
    obtain ⟨-, hd, hr⟩ := hg
    subst hd; subst hr
    exact h1 v hv
  · exact h2 n h i' d' r' hg v hv

theorem gateLocal_branch {ps : List Node} (h : ∀ t ∈ ps, gateLocal t) (i : String) :
    gateLocal (.branch i ps) := by
  intro n hn i' d r hg v hv
  simp only [nodesOf, List.mem_cons] at hn
  rcases hn with h' | h'
  · subst h'; simp at hg
  · obtain ⟨t, ht, hnt⟩ := mem_nodesOfList.mp h'
    exact h t ht n hnt i' d r hg v hv

theorem reqsOne_key (i v : String) : reqsOne (.key i v) := by
  intro n hn i' d r hg
  simp only [nodesOf, List.mem_singleton] at hn
  subst hn
  simp at hg

theorem reqsOne_gate {d : Node} {r : List String}
    (h1 : r.length = 1) (h2 : reqsOne d) (i : String) : reqsOne (.gate i d r) := by
  intro n hn i' d' r' hg
  simp only [nodesOf, List.mem_cons] at hn
  rcases hn with h | h
  · subst h
    simp only [Node.gate.injEq] at hg
    obtain ⟨-, -, hr⟩ := hg
    subst hr
    exact h1
  · exact h2 n h i' d' r' hg

theorem reqsOne_branch {ps : List Node} (h : ∀ t ∈ ps, reqsOne t) (i : String) :
    reqsOne (.branch i ps) := by
  intro n hn i' d r hg
  simp only [nodesOf, List.mem_cons] at hn
  rcases hn with h' | h'
  · subst h'; simp at hg
  · obtain ⟨t, ht, hnt⟩ := mem_nodesOfList.mp h'
    exact h t ht n hnt i' d r hg

theorem branchesOk_key (i v : String) : branchesOk (.key i v) := by
  intro n hn i' ps hg
  simp only [nodesOf, List.mem_singleton] at hn
  subst hn
  simp at hg

theorem branchesOk_gate {d : Node} (h : branchesOk d) (i : String) (r : List String) :
    branchesOk (.gate i d r) := by
  intro n hn i' ps hg
  simp only [nodesOf, List.mem_cons] at hn
  rcases hn with h' | h'
  · subst h'; simp at hg
  · exact h n h' i' ps hg

theorem branchesOk_branch {ps : List Node} (hlen : 2 ≤ ps.length)
    (h : ∀ t ∈ ps, branchesOk t) (i : String) : branchesOk (.branch i ps) := by
  intro n hn i' ps' hg
  simp only [nodesOf, List.mem_cons] at hn
  rcases hn with h' | h'
  · subst h'
    simp only [Node.branch.injEq] at hg
    obtain ⟨-, hp⟩ := hg
    subst hp
    exact hlen
  · obtain ⟨t, ht, hnt⟩ := mem_nodesOfList.mp h'
    exact h t ht n hnt i' ps' hg

/-! ## Tree well-formedness at a key-counter position -/

/-- Everything the invariant tracks about one finished (sub-)tree when the
key counter stands at `m`: all its key values and requirements were drawn
before `m`, every gate's key lies outside the gate's own destination, every
gate has exactly one requirement, and every branch has at least two paths. -/
def treeWF (m : Nat) (t : Node) : Prop :=
  (∀ v ∈ keyVals t, valOk m v) ∧ (∀ v ∈ reqVals t, valOk m v) ∧
  gateLocal t ∧ reqsOne t ∧ branchesOk t

theorem treeWF_mono {m m' : Nat} (h : m ≤ m') {t : Node} (ht : treeWF m t) :
    treeWF m' t :=
  ⟨fun v hv => valOk_mono h (ht.1 v hv), fun v hv => valOk_mono h (ht.2.1 v hv),
   ht.2.2.1, ht.2.2.2.1, ht.2.2.2.2⟩

theorem treeWF_key {m : Nat} {v : String} (hv : valOk m v) (i : String) :
    treeWF m (.key i v) := by
  refine ⟨?_, ?_, gateLocal_key i v, reqsOne_key i v, branchesOk_key i v⟩
  · intro v' hv'
    rw [keyVals_key] at hv'
    simp at hv'
    subst hv'
    exact hv
  · intro v' hv'
    rw [reqVals_key] at hv'
    simp at hv'

/-- Pending keys: each entry is a `KeyNode` whose value is already drawn. -/
def pendWF (m : Nat) (l : List Node) : Prop :=
  ∀ p ∈ l, ∃ i v, p = Node.key i v ∧ valOk m v

theorem pendWF_mono {m m' : Nat} (h : m ≤ m') {l : List Node} (hl : pendWF m l) :
    pendWF m' l := by
  intro p hp
  obtain ⟨i, v, rfl, hv⟩ := hl p hp
  exact ⟨i, v, rfl, valOk_mono h hv⟩

theorem pendWF_reqValsList {m : Nat} {l : List Node} (h : pendWF m l) :
    reqValsList l = [] := by
  induction l with
  | nil => exact reqValsList_nil
  | cons p ps ih =>
    obtain ⟨i, v, rfl, -⟩ := h p (by simp)
    rw [reqValsList_cons, reqVals_key]
    exact ih (fun q hq => h q (by simp [hq]))

theorem pendWF_countGatesList {m : Nat} {l : List Node} (h : pendWF m l) :
    countGatesList l = 0 := by
  induction l with
  | nil => exact countGatesList_nil
  | cons p ps ih =>
    obtain ⟨i, v, rfl, -⟩ := h p (by simp)
    rw [countGatesList_cons, countGates_key, Nat.zero_add]
    exact ih (fun q hq => h q (by simp [hq]))

theorem pendWF_keyVals {m : Nat} {l : List Node} (h : pendWF m l) :
    ∀ v ∈ keyValsList l, valOk m v := by
  induction l with
  | nil => simp [keyValsList_nil]
  | cons p ps ih =>
    obtain ⟨i, v, rfl, hv⟩ := h p (by simp)
    intro v' hv'
    rw [keyValsList_cons, keyVals_key] at hv'
    rcases List.mem_append.mp hv' with h' | h'
    · simp at h'; subst h'; exact hv
    · exact ih (fun q hq => h q (by simp [hq])) v' h'

theorem pendWF_treeWF {m : Nat} {l : List Node} (h : pendWF m l) :
    ∀ t ∈ l, treeWF m t := by
  intro t ht
  obtain ⟨i, v, rfl, hv⟩ := h t ht
  exact treeWF_key hv i

/-! ## Permutation congruence for the list measures -/

theorem keyValsList_perm {l₁ l₂ : List Node} (h : l₁.Perm l₂) :
    (keyValsList l₁).Perm (keyValsList l₂) := by
  induction h with
  | nil => rfl
  | cons x _ ih =>
    rw [keyValsList_cons, keyValsList_cons]
    exact ih.append_left _
  | swap x y l =>
    rw [keyValsList_cons, keyValsList_cons, keyValsList_cons, keyValsList_cons,
      ← List.append_assoc, ← List.append_assoc]
    exact List.perm_append_comm.append_right _
  | trans _ _ ih₁ ih₂ => exact ih₁.trans ih₂

theorem reqValsList_perm {l₁ l₂ : List Node} (h : l₁.Perm l₂) :
    (reqValsList l₁).Perm (reqValsList l₂) := by
  induction h with
  | nil => rfl
  | cons x _ ih =>
    rw [reqValsList_cons, reqValsList_cons]
    exact ih.append_left _
  | swap x y l =>
    rw [reqValsList_cons, reqValsList_cons, reqValsList_cons, reqValsList_cons,
      ← List.append_assoc, ← List.append_assoc]
    exact List.perm_append_comm.append_right _
  | trans _ _ ih₁ ih₂ => exact ih₁.trans ih₂

/-! ## State effects of the helpers -/

theorem rand_choice_state (s : GenState) :
    (rand_choice s).2.key_alphaindex = s.key_alphaindex ∧
    (rand_choice s).2.key_numindex = s.key_numindex ∧
    (rand_choice s).2.rng = s.rng := by
  cases s
  simp [rand_choice]

theorem gen_id_preserves (s : GenState) :
    kidx (gen_id s).2 = kidx s ∧ (saneKey s → saneKey (gen_id s).2) ∧
    (gen_id s).2.rng = s.rng := by
  cases s
  simp [gen_id, kidx, saneKey]

theorem choose_split_state (l : List Node) : ∀ (st : GenState),
    kidx (choose_some_keys_split l st).2 = kidx st ∧
    (saneKey st → saneKey (choose_some_keys_split l st).2) ∧
    (choose_some_keys_split l st).2.rng = st.rng := by
  induction l with
  | nil => intro st; simp [choose_some_keys_split]
  | cons k ks ih =>
    intro st
    obtain ⟨h1, h2, h3⟩ := rand_choice_state st
    obtain ⟨g1, g2, g3⟩ := ih (rand_choice st).2
    rcases hsplit : choose_some_keys_split ks (rand_choice st).2 with ⟨⟨cs, rs⟩, st2⟩
    rw [hsplit] at g1 g2 g3
    have hk : kidx (rand_choice st).2 = kidx st := by simp [kidx, h1, h2]
    have hs : saneKey st → saneKey (rand_choice st).2 := by
      intro h; exact ⟨by rw [h1]; exact h.1, by rw [h2]; exact h.2⟩
    refine ⟨?_, ?_, ?_⟩ <;>
      simp only [choose_some_keys_split, hsplit] <;>
      first
        | (rw [g1, hk])
        | (intro h; exact g2 (hs h))
        | (rw [g3, h3])

theorem choose_split_perm (l : List Node) : ∀ (st : GenState),
    ((choose_some_keys_split l st).1.1 ++ (choose_some_keys_split l st).1.2).Perm l := by
  induction l with
  | nil => intro st; simp [choose_some_keys_split]
  | cons k ks ih =>
    intro st
    have hperm := ih (rand_choice st).2
    rcases hsplit : choose_some_keys_split ks (rand_choice st).2 with ⟨⟨cs, rs⟩, st2⟩
    rw [hsplit] at hperm
    rcases hb : (rand_choice st).1 with _ | _
    · simp only [choose_some_keys_split, hsplit, hb, if_false, Bool.false_eq_true]
      exact List.perm_middle.trans (hperm.cons k)
    · simp only [choose_some_keys_split, hsplit, hb, if_true]
      exact hperm.cons k

/-! ## What `generate_node_with_branches` preserves -/

theorem mem_keyValsList {v : String} {l : List Node} :
    v ∈ keyValsList l ↔ ∃ t ∈ l, v ∈ keyVals t := by
  induction l with
  | nil => simp [keyValsList_nil]
  | cons t ts ih => simp [keyValsList_cons, ih]

theorem mem_reqValsList {v : String} {l : List Node} :
    v ∈ reqValsList l ↔ ∃ t ∈ l, v ∈ reqVals t := by
  induction l with
  | nil => simp [reqValsList_nil]
  | cons t ts ih => simp [reqValsList_cons, ih]

theorem treeWF_ofList {m : Nat} {i : String} {l : List Node} (hlen : 2 ≤ l.length)
    (hm : ∀ t ∈ l, treeWF m t) : treeWF m (.branch i l) := by
  refine ⟨?_, ?_, gateLocal_branch (fun t ht => (hm t ht).2.2.1) _,
    reqsOne_branch (fun t ht => (hm t ht).2.2.2.1) _,
    branchesOk_branch hlen (fun t ht => (hm t ht).2.2.2.2) _⟩
  · intro v hv
    rw [keyVals_branch] at hv
    obtain ⟨t, ht, hvt⟩ := mem_keyValsList.mp hv
    exact (hm t ht).1 v hvt
  · intro v hv
    rw [reqVals_branch] at hv
    obtain ⟨t, ht, hvt⟩ := mem_reqValsList.mp hv
    exact (hm t ht).2.1 v hvt

theorem generate_node_with_branches_spec {l : List Node} {st : GenState} {cur : Node}
    {st' : GenState} (h : generate_node_with_branches l st = some (cur, st')) :
    keyVals cur = keyValsList l ∧ reqVals cur = reqValsList l ∧
    countGates cur = countGatesList l ∧
    (∀ m, (∀ t ∈ l, treeWF m t) → treeWF m cur) ∧
    kidx st' = kidx st ∧ (saneKey st → saneKey st') ∧ st'.rng = st.rng := by
  unfold generate_node_with_branches at h
  by_cases h1 : l.length > 1
  · rw [if_pos h1] at h
    simp only [BranchNode, Option.some.injEq, Prod.mk.injEq] at h
    obtain ⟨hcur, hst⟩ := h
    subst hcur
    subst hst
    obtain ⟨k1, k2, k3⟩ := gen_id_preserves st
    exact ⟨keyVals_branch _ l, reqVals_branch _ l, countGates_branch _ l,
      fun m hm => treeWF_ofList (by omega) hm, k1, k2, k3⟩
  · rw [if_neg h1] at h
    cases l with
    | nil => simp at h
    | cons b bs =>
      cases bs with
      | nil =>
        simp only [Option.some.injEq, Prod.mk.injEq] at h
        obtain ⟨hcur, hst⟩ := h
        subst hcur
        subst hst
        refine ⟨by rw [keyValsList_cons, keyValsList_nil, List.append_nil],
          by rw [reqValsList_cons, reqValsList_nil, List.append_nil],
          by simp [countGatesList_cons, countGatesList_nil], ?_, rfl, fun hs => hs, rfl⟩
        intro m hm
        exact hm b (by simp)
      | cons b2 bs2 => exact absurd (by simp) h1

theorem newKeys_single (a : Nat) : newKeys a (a + 1) = [keyValAt a] := by
  simp [newKeys]

/-! ## The generation invariant

`GenPost` is everything one successful generator call guarantees: the key
counter only advances, and advances at least once per remaining gate; the
tree's key values are exactly those of the destination, plus the pending
keys, plus the freshly drawn interval (each exactly once); its requirement
values are exactly those of the destination plus the same fresh interval;
the finished tree is well-formed; and its gate count is the destination's
plus exactly one gate per freshly drawn key value. -/

def GenPost (dest : Node) (cfg : TreeConfig) (st : GenState) (t : Node)
    (st' : GenState) : Prop :=
  saneKey st' ∧ kidx st ≤ kidx st' ∧
  kidx st + cfg.num_gates_remaining_to_generate.toNat ≤ kidx st' ∧
  ((keyVals t : Multiset String) =
    (keyVals dest : Multiset String) +
    (keyValsList cfg.keys_remaining_to_place : Multiset String) +
    (newKeys (kidx st) (kidx st') : Multiset String)) ∧
  ((reqVals t : Multiset String) =
    (reqVals dest : Multiset String) + (newKeys (kidx st) (kidx st') : Multiset String)) ∧
  treeWF (kidx st') t ∧
  countGates t = countGates dest + (kidx st' - kidx st)

/-- The analogue of `GenPost` for the downstream loop over the chosen keys. -/
def ListPost (ks : List Node) (st : GenState) (ts : List Node) (st' : GenState) : Prop :=
  saneKey st' ∧ kidx st ≤ kidx st' ∧
  ((keyValsList ts : Multiset String) =
    (keyValsList ks : Multiset String) + (newKeys (kidx st) (kidx st') : Multiset String)) ∧
  ((reqValsList ts : Multiset String) = (newKeys (kidx st) (kidx st') : Multiset String)) ∧
  (∀ u ∈ ts, treeWF (kidx st') u) ∧
  countGatesList ts = kidx st' - kidx st

theorem genTreeFuel_post : ∀ (fuel : Nat),
    (∀ (dest : Node) (cfg : TreeConfig) (st : GenState) (t : Node) (st' : GenState),
        genTreeFuel fuel dest cfg st = some (t, st') →
        saneKey st → treeWF (kidx st) dest →
        pendWF (kidx st) cfg.keys_remaining_to_place →
        GenPost dest cfg st t st') ∧
    (∀ (ks : List Node) (cfg : TreeConfig) (st : GenState) (ts : List Node)
        (st' : GenState),
        goList (genTreeFuel fuel) ks cfg st = some (ts, st') →
        saneKey st → pendWF (kidx st) ks →
        ListPost ks st ts st') := by
  intro fuel
  induction fuel with
  | zero =>
    constructor
    · intro dest cfg st t st' h
      simp [genTreeFuel] at h
    · intro ks cfg st ts st' h hsane hks
      cases ks with
      | nil =>
        simp only [goList, Option.some.injEq, Prod.mk.injEq] at h
        obtain ⟨rfl, rfl⟩ := h
        exact ⟨hsane, le_rfl, by simp [keyValsList_nil, newKeys_self],
          by simp [reqValsList_nil, newKeys_self], by simp,
          by simp [countGatesList_nil]⟩
      | cons k ks' => simp [goList, genTreeFuel] at h
  | succ fuel ih =>
    obtain ⟨ihT, ihL⟩ := ih
    have treeCase : ∀ (dest : Node) (cfg : TreeConfig) (st : GenState) (t : Node)
        (st' : GenState),
        genTreeFuel (fuel + 1) dest cfg st = some (t, st') →
        saneKey st → treeWF (kidx st) dest →
        pendWF (kidx st) cfg.keys_remaining_to_place →
        GenPost dest cfg st t st' := by
      intro dest cfg st t st' h hsane hdest hpend
      by_cases hrem : cfg.num_gates_remaining_to_generate ≤ 0
      · -- base case: pending keys plus destination, collapsed
        simp only [genTreeFuel, hrem, if_true] at h
        obtain ⟨hkv, hrq, hcg, hwf, hkidx, hsane', hrng⟩ :=
          generate_node_with_branches_spec h
        have hkv' : keyVals t = keyValsList cfg.keys_remaining_to_place ++ keyVals dest := by
          rw [hkv, keyValsList_append, keyValsList_cons, keyValsList_nil, List.append_nil]
        have hrq' : reqVals t = reqVals dest := by
          rw [hrq, reqValsList_append, pendWF_reqValsList hpend, reqValsList_cons,
            reqValsList_nil, List.append_nil, List.nil_append]
        have hcg' : countGates t = countGates dest := by
          rw [hcg, countGatesList_append, pendWF_countGatesList hpend,
            countGatesList_cons, countGatesList_nil]
          omega
        refine ⟨hsane' hsane, by omega, by omega, ?_, ?_, ?_, by omega⟩
        · rw [hkv', hkidx, newKeys_self]
          rw [Multiset.ext]
          intro a
          simp only [← Multiset.coe_add, Multiset.count_add, Multiset.coe_count,
            List.count_nil]
          omega
        · rw [hrq', hkidx, newKeys_self]
          simp
        · rw [hkidx]
          refine hwf (kidx st) ?_
          intro u hu
          rcases List.mem_append.mp hu with hu | hu
          · exact pendWF_treeWF hpend u hu
          · simp at hu; subst hu; exact hdest
      · -- recursive case: one fresh gate/key pair, downstream choice, recurse
        rcases hid1 : gen_id st with ⟨gid, st1⟩
        rcases hkvp : gen_key_value st1 with ⟨kv, st2a⟩
        rcases hid2 : gen_id st2a with ⟨kid, st2⟩
        obtain ⟨p1, p2, p3⟩ := gen_id_preserves st
        rw [hid1] at p1 p2 p3
        dsimp only at p1 p2 p3
        have hsane1 : saneKey st1 := p2 hsane
        obtain ⟨q1, q2, q3, -⟩ := gen_key_value_spec st1 hsane1
        rw [hkvp] at q1 q2 q3
        dsimp only at q1 q2 q3
        obtain ⟨r1, r2, r3⟩ := gen_id_preserves st2a
        rw [hid2] at r1 r2 r3
        dsimp only at r1 r2 r3
        have hsane2 : saneKey st2 := r2 q2
        have hkv_val : kv = keyValAt (kidx st) := by rw [q1, p1]
        have hA : GateNode dest [] st = (Node.gate gid dest [], st1) := by
          simp [GateNode, hid1]
        have hB : generate_key_node_for_gate (Node.gate gid dest []) st1 =
            (Node.gate gid dest [kv], Node.key kid kv, st2) := by
          simp [generate_key_node_for_gate, hkvp, KeyNode, hid2, addRequirement]
        rcases hC : choose_some_keys_split
            (cfg.keys_remaining_to_place ++ [Node.key kid kv]) st2
          with ⟨⟨chosen, kept⟩, st3⟩
        simp only [genTreeFuel, hrem, if_false, hA, hB, hC] at h
        obtain ⟨c1, c2, c3⟩ :=
          choose_split_state (cfg.keys_remaining_to_place ++ [Node.key kid kv]) st2
        rw [hC] at c1 c2 c3
        have hsane3 : saneKey st3 := c2 hsane2
        have e3 : kidx st3 = kidx st + 1 := by rw [c1, r1, q3, p1]
        have hpend1 : pendWF (kidx st3)
            (cfg.keys_remaining_to_place ++ [Node.key kid kv]) := by
          intro p hp
          rcases List.mem_append.mp hp with hp | hp
          · obtain ⟨i, v, rfl, hv⟩ := hpend p hp
            exact ⟨i, v, rfl, valOk_mono (by omega) hv⟩
          · simp at hp; subst hp
            exact ⟨kid, kv, rfl, by rw [hkv_val]; exact valOk_keyValAt (by omega)⟩
        have hperm := choose_split_perm
          (cfg.keys_remaining_to_place ++ [Node.key kid kv]) st2
        rw [hC] at hperm
        have hchosen_pend : pendWF (kidx st3) chosen :=
          fun p hp => hpend1 p (hperm.subset (by simp [hp]))
        have hkept_pend : pendWF (kidx st3) kept :=
          fun p hp => hpend1 p (hperm.subset (by simp [hp]))
        rcases hD : goList (genTreeFuel fuel) chosen
            ⟨cfg.total_num_gates_to_generate,
             cfg.num_gates_remaining_to_generate - 1, kept⟩ st3
          with _ | ⟨subs, st4⟩
        · rw [hD] at h; simp at h
        simp only [hD] at h
        obtain ⟨l1, l2, l3, l4, l5, l6⟩ := ihL chosen _ st3 subs st4 hD hsane3 hchosen_pend
        rcases hE : generate_node_with_branches (Node.gate gid dest [kv] :: subs) st4
          with _ | ⟨cur, st5⟩
        · rw [hE] at h; simp at h
        simp only [hE] at h
        obtain ⟨g1, g2, g3, g4, g5, g6, g7⟩ := generate_node_with_branches_spec hE
        have hdest4 : treeWF (kidx st4) dest := treeWF_mono (by omega) hdest
        have hgateWF : treeWF (kidx st4) (Node.gate gid dest [kv]) := by
          refine ⟨?_, ?_, ?_, ?_, ?_⟩
          · intro v hv
            rw [keyVals_gate] at hv
            exact hdest4.1 v hv
          · intro v hv
            rw [reqVals_gate] at hv
            rcases List.mem_append.mp hv with hv | hv
            · simp at hv; subst hv
              rw [hkv_val]
              exact valOk_keyValAt (by omega)
            · exact hdest4.2.1 v hv
          · refine gateLocal_gate ?_ hdest4.2.2.1 gid
            intro v hv
            simp only [List.mem_singleton] at hv
            intro hmem
            rw [hv] at hmem
            exact hdest.1 kv hmem (kidx st) le_rfl hkv_val
          · exact reqsOne_gate (by simp) hdest4.2.2.2.1 gid
          · exact branchesOk_gate hdest4.2.2.2.2 gid [kv]
        have hcurWF : treeWF (kidx st5) cur := by
          rw [g5]
          refine g4 (kidx st4) ?_
          intro u hu
          rcases List.mem_cons.mp hu with hu | hu
          · subst hu; exact hgateWF
          · exact l5 u hu
        have hsane5 : saneKey st5 := g6 l1
        obtain ⟨t1, t2, t3, t4, t5, t6, t7⟩ :=
          ihT cur _ st5 t st' h hsane5 hcurWF
            (pendWF_mono (by omega) hkept_pend)
        dsimp only at t3 t4 t5
        -- list-level bookkeeping turned into multiset equations
        have hg1 : (keyVals cur : Multiset String) =
            (keyVals dest : Multiset String) + (keyValsList subs : Multiset String) := by
          rw [g1, keyValsList_cons, keyVals_gate, Multiset.coe_add]
        have hg2 : (reqVals cur : Multiset String) =
            ([kv] : Multiset String) + (reqVals dest : Multiset String) +
            (reqValsList subs : Multiset String) := by
          rw [g2, reqValsList_cons, reqVals_gate, Multiset.coe_add, Multiset.coe_add]
        have hpermKV : (keyValsList chosen : Multiset String) +
            (keyValsList kept : Multiset String) =
            (keyValsList cfg.keys_remaining_to_place : Multiset String) +
            ([kv] : Multiset String) := by
          have := Multiset.coe_eq_coe.mpr (keyValsList_perm hperm)
          rw [keyValsList_append, keyValsList_append, keyValsList_cons, keyValsList_nil,
            keyVals_key, List.append_nil] at this
          rw [Multiset.coe_add, Multiset.coe_add, this]
        have hsplitN : (newKeys (kidx st) (kidx st') : Multiset String) =
            ([kv] : Multiset String) +
            (newKeys (kidx st3) (kidx st4) : Multiset String) +
            (newKeys (kidx st5) (kidx st') : Multiset String) := by
          have h1 : newKeys (kidx st) (kidx st3) ++ newKeys (kidx st3) (kidx st') =
              newKeys (kidx st) (kidx st') := newKeys_append (by omega) (by omega)
          have h2 : newKeys (kidx st3) (kidx st4) ++ newKeys (kidx st4) (kidx st') =
              newKeys (kidx st3) (kidx st') := newKeys_append l2 (by omega)
          have h3 : newKeys (kidx st) (kidx st3) = [kv] := by
            rw [e3, hkv_val, newKeys_single]
          have h5 : newKeys (kidx st4) (kidx st') = newKeys (kidx st5) (kidx st') := by
            rw [g5]
          rw [← h1, h3, ← h2, h5, ← Multiset.coe_add, ← Multiset.coe_add, add_assoc]
        refine ⟨t1, by omega, by omega, ?_, ?_, t6, ?_⟩
        · rw [Multiset.ext]
          intro a
          have k4 := congrArg (Multiset.count a) t4
          have k3 := congrArg (Multiset.count a) l3
          have kg := congrArg (Multiset.count a) hg1
          have kp := congrArg (Multiset.count a) hpermKV
          have kn := congrArg (Multiset.count a) hsplitN
          simp only [Multiset.count_add] at k4 k3 kg kp kn ⊢
          omega
        · rw [Multiset.ext]
          intro a
          have k5 := congrArg (Multiset.count a) t5
          have k4 := congrArg (Multiset.count a) l4
          have kg := congrArg (Multiset.count a) hg2
          have kn := congrArg (Multiset.count a) hsplitN
          simp only [Multiset.count_add] at k5 k4 kg kn ⊢
          omega
        · have hcg : countGates cur = 1 + countGates dest + countGatesList subs := by
            rw [g3, countGatesList_cons, countGates_gate]
          omega
    refine ⟨treeCase, ?_⟩
    intro ks
    induction ks with
    | nil =>
      intro cfg st ts st' h hsane hks
      simp only [goList, Option.some.injEq, Prod.mk.injEq] at h
      obtain ⟨rfl, rfl⟩ := h
      exact ⟨hsane, le_rfl, by simp [keyValsList_nil, newKeys_self],
        by simp [reqValsList_nil, newKeys_self], by simp,
        by simp [countGatesList_nil]⟩
    | cons k ks' ihk =>
      intro cfg st ts st' h hsane hks
      rcases hH : genTreeFuel (fuel + 1) k cfg.copy_without_keys st with _ | ⟨t1, stm⟩
      · rw [goList, hH] at h; simp at h
      simp only [goList, hH] at h
      rcases hI : goList (genTreeFuel (fuel + 1)) ks' cfg stm with _ | ⟨ts', st''⟩
      · simp only [hI] at h; simp at h
      simp only [hI] at h
      simp only [Option.some.injEq, Prod.mk.injEq] at h
      obtain ⟨rfl, rfl⟩ := h
      obtain ⟨i, v, rfl, hv⟩ := hks k (by simp)
      obtain ⟨a1, a2, a3, a4, a5, a6, a7⟩ :=
        treeCase (Node.key i v) cfg.copy_without_keys st t1 stm hH hsane
          (treeWF_key hv i)
          (by intro p hp; simp [TreeConfig.copy_without_keys, TreeConfig.pyInit] at hp)
      obtain ⟨b1, b2, b3, b4, b5, b6⟩ :=
        ihk cfg stm ts' st'' hI a1
          (pendWF_mono a2 (fun p hp => hks p (by simp [hp])))
      have hNsplit : (newKeys (kidx st) (kidx st'') : Multiset String) =
          (newKeys (kidx st) (kidx stm) : Multiset String) +
          (newKeys (kidx stm) (kidx st'') : Multiset String) := by
        rw [Multiset.coe_add, newKeys_append a2 b2]
      refine ⟨b1, by omega, ?_, ?_, ?_, ?_⟩
      · rw [Multiset.ext]
        intro a
        have m1 := congrArg (Multiset.count a) a4
        have m2 := congrArg (Multiset.count a) b3
        have m3 := congrArg (Multiset.count a) hNsplit
        have hKVcons : (keyValsList (t1 :: ts') : Multiset String) =
            (keyVals t1 : Multiset String) + (keyValsList ts' : Multiset String) := by
          rw [keyValsList_cons, Multiset.coe_add]
        have hKVcons' : (keyValsList (Node.key i v :: ks') : Multiset String) =
            (keyVals (Node.key i v) : Multiset String) +
            (keyValsList ks' : Multiset String) := by
          rw [keyValsList_cons, Multiset.coe_add]
        have m4 := congrArg (Multiset.count a) hKVcons
        have m5 := congrArg (Multiset.count a) hKVcons'
        have hcopy : (keyValsList
            (TreeConfig.copy_without_keys cfg).keys_remaining_to_place :
              Multiset String) = (0 : Multiset String) := by
          simp [TreeConfig.copy_without_keys, TreeConfig.pyInit, keyValsList_nil]
        have m6 := congrArg (Multiset.count a) hcopy
        simp only [Multiset.count_add] at m1 m2 m3 m4 m5 m6 ⊢
        simp only [Multiset.count_zero] at m6
        omega
      · rw [Multiset.ext]
        intro a
        have m1 := congrArg (Multiset.count a) a5
        have m2 := congrArg (Multiset.count a) b4
        have m3 := congrArg (Multiset.count a) hNsplit
        have hRQcons : (reqValsList (t1 :: ts') : Multiset String) =
            (reqVals t1 : Multiset String) + (reqValsList ts' : Multiset String) := by
          rw [reqValsList_cons, Multiset.coe_add]
        have m4 := congrArg (Multiset.count a) hRQcons
        have hkeyRQ : (reqVals (Node.key i v) : Multiset String) = 0 := by
          simp [reqVals_key]
        have m5 := congrArg (Multiset.count a) hkeyRQ
        simp only [Multiset.count_add] at m1 m2 m3 m4 m5 ⊢
        simp only [Multiset.count_zero] at m5
        omega
      · intro u hu
        rcases List.mem_cons.mp hu with hu | hu
        · subst hu; exact treeWF_mono b2 a6
        · exact b5 u hu
      · rw [countGatesList_cons]
        have : countGates (Node.key i v) = 0 := countGates_key i v
        omega

/-! ## Exact key-counter advance when downstream placement is always false -/

theorem gen_key_value_rng (s : GenState) : (gen_key_value s).2.rng = s.rng := by
  cases s
  simp [gen_key_value]

theorem choose_split_rngFalse (l : List Node) : ∀ (st : GenState),
    st.rng = constFalse →
    (choose_some_keys_split l st).1.1 = [] ∧ (choose_some_keys_split l st).1.2 = l := by
  induction l with
  | nil => intro st _; simp [choose_some_keys_split]
  | cons k ks ih =>
    intro st hrng
    have hb : (rand_choice st).1 = false := by
      cases st
      simp_all [rand_choice, constFalse]
    have hrng' : (rand_choice st).2.rng = constFalse := by
      rw [(rand_choice_state st).2.2, hrng]
    obtain ⟨h1, h2⟩ := ih (rand_choice st).2 hrng'
    rcases hsplit : choose_some_keys_split ks (rand_choice st).2 with ⟨⟨cs, rs⟩, st2⟩
    rw [hsplit] at h1 h2
    dsimp only at h1 h2
    subst h1
    subst h2
    simp [choose_some_keys_split, hsplit, hb]

theorem genTreeFuel_rngFalse : ∀ (fuel : Nat) (dest : Node) (cfg : TreeConfig)
    (st : GenState) (t : Node) (st' : GenState),
    st.rng = constFalse → saneKey st →
    genTreeFuel fuel dest cfg st = some (t, st') →
    kidx st' = kidx st + cfg.num_gates_remaining_to_generate.toNat ∧
    st'.rng = constFalse ∧ saneKey st' := by
  intro fuel
  induction fuel with
  | zero =>
    intro dest cfg st t st' _ _ h
    simp [genTreeFuel] at h
  | succ fuel ih =>
    intro dest cfg st t st' hrng hsane h
    by_cases hrem : cfg.num_gates_remaining_to_generate ≤ 0
    · simp only [genTreeFuel, hrem, if_true] at h
      obtain ⟨-, -, -, -, hkidx, hsane', hrng'⟩ := generate_node_with_branches_spec h
      refine ⟨by omega, by rw [hrng', hrng], hsane' hsane⟩
    · rcases hid1 : gen_id st with ⟨gid, st1⟩
      rcases hkvp : gen_key_value st1 with ⟨kv, st2a⟩
      rcases hid2 : gen_id st2a with ⟨kid, st2⟩
      obtain ⟨p1, p2, p3⟩ := gen_id_preserves st
      rw [hid1] at p1 p2 p3
      dsimp only at p1 p2 p3
      have hsane1 : saneKey st1 := p2 hsane
      obtain ⟨q1, q2, q3, -⟩ := gen_key_value_spec st1 hsane1
      rw [hkvp] at q1 q2 q3
      dsimp only at q1 q2 q3
      obtain ⟨r1, r2, r3⟩ := gen_id_preserves st2a
      rw [hid2] at r1 r2 r3
      dsimp only at r1 r2 r3
      have hsane2 : saneKey st2 := r2 q2
      have hrng2 : st2.rng = constFalse := by
        rw [r3]
        have := gen_key_value_rng st1
        rw [hkvp] at this
        dsimp only at this
        rw [this, p3, hrng]
      have hA : GateNode dest [] st = (Node.gate gid dest [], st1) := by
        simp [GateNode, hid1]
      have hB : generate_key_node_for_gate (Node.gate gid dest []) st1 =
          (Node.gate gid dest [kv], Node.key kid kv, st2) := by
        simp [generate_key_node_for_gate, hkvp, KeyNode, hid2, addRequirement]
      obtain ⟨hch, hkp⟩ := choose_split_rngFalse
        (cfg.keys_remaining_to_place ++ [Node.key kid kv]) st2 hrng2
      rcases hC : choose_some_keys_split
          (cfg.keys_remaining_to_place ++ [Node.key kid kv]) st2
        with ⟨⟨chosen, kept⟩, st3⟩
      rw [hC] at hch hkp
      dsimp only at hch hkp
      subst hch
      subst hkp
      obtain ⟨c1, c2, c3⟩ :=
        choose_split_state (cfg.keys_remaining_to_place ++ [Node.key kid kv]) st2
      rw [hC] at c1 c2 c3
      dsimp only at c1 c2 c3
      have hsane3 : saneKey st3 := c2 hsane2
      have hrng3 : st3.rng = constFalse := by rw [c3, hrng2]
      have e3 : kidx st3 = kidx st + 1 := by rw [c1, r1, q3, p1]
      simp only [genTreeFuel, hrem, if_false, hA, hB, hC, goList] at h
      rcases hE : generate_node_with_branches [Node.gate gid dest [kv]] st3
        with _ | ⟨cur, st5⟩
      · rw [hE] at h; simp at h
      simp only [hE] at h
      obtain ⟨-, -, -, -, g5, g6, g7⟩ := generate_node_with_branches_spec hE
      obtain ⟨f1, f2, f3⟩ := ih cur _ st5 t st' (by rw [g7, hrng3]) (g6 hsane3) h
      refine ⟨?_, f2, f3⟩
      rw [f1]
      dsimp only
      omega

/-! ## Claims C1, C2, C5, C6: properties of the full program run -/

theorem runMain_eq (q : Int) (rng : Nat → Bool) :
    runMain q rng = genTreeFuel (q.toNat + 1) (Node.key "ID_A1" "EXIT")
      (TreeConfig.pyInit q)
      ⟨1, 1, 0, 1, rng, 0⟩ := rfl

theorem runMain_post {q : Int} {rng : Nat → Bool} {t : Node} {st' : GenState}
    (h : runMain q rng = some (t, st')) :
    GenPost (Node.key "ID_A1" "EXIT") (TreeConfig.pyInit q) ⟨1, 1, 0, 1, rng, 0⟩ t st' := by
  rw [runMain_eq] at h
  refine (genTreeFuel_post (q.toNat + 1)).1 _ _ _ _ _ h ?_ ?_ ?_
  · exact ⟨by norm_num, by norm_num⟩
  · exact treeWF_key (valOk_exit _) _
  · intro p hp
    simp [TreeConfig.pyInit] at hp

theorem runMain_kidx0 (rng : Nat → Bool) :
    kidx ⟨1, 1, 0, 1, rng, 0⟩ = 0 := by
  simp [kidx]

/-- **C1 (amended).** The tree always contains at least the requested number
of gates, and exactly that number when the downstream-placement choice is
always false.  (In general the count can exceed the request: a key placed
downstream while `r` gates remain hands the sub-tree a fresh copy of the
remaining quota `r` without deducting it from the parent, creating extra
gates — see the counterexample.) -/
theorem claim_C1 :
    (∀ (n : Nat) (rng : Nat → Bool) (t : Node) (st' : GenState),
        runMain (n : Int) rng = some (t, st') → n ≤ countGates t) ∧
    (∀ (n : Nat) (t : Node) (st' : GenState),
        runMain (n : Int) constFalse = some (t, st') → countGates t = n) := by
  constructor
  · intro n rng t st' h
    obtain ⟨-, -, hbound, -, -, -, hcount⟩ := runMain_post h
    rw [runMain_kidx0] at hbound hcount
    rw [countGates_key] at hcount
    simp only [TreeConfig.pyInit] at hbound
    omega
  · intro n t st' h
    obtain ⟨-, -, -, -, -, -, hcount⟩ := runMain_post h
    rw [runMain_kidx0] at hcount
    rw [countGates_key] at hcount
    rw [runMain_eq] at h
    obtain ⟨hk, -, -⟩ := genTreeFuel_rngFalse _ _ _ _ _ _ rfl
      (by exact ⟨by norm_num, by norm_num⟩) h
    rw [runMain_kidx0] at hk
    simp only [TreeConfig.pyInit] at hk
    omega

/-- **C1, counterexample.** Requesting 2 gates with every pending key placed
downstream produces a tree with 3 gates: when the first key is pushed
downstream, `copy_without_keys` hands the sub-tree a fresh quota equal to
the remaining count while the parent keeps consuming the same quota. -/
theorem claim_C1_counterexample :
    (runMain 2 constTrue).map (fun p => countGates p.1) = some 3 ∧ (3 : Nat) ≠ 2 :=
  ⟨rfl, by norm_num⟩

/-- Witness for C1 on the run with one gate and downstream placement off. -/
theorem claim_C1_witness :
    1 ≤ countGates (Node.branch "ID_D1" [Node.key "ID_C1" "KEY_A1",
      Node.gate "ID_B1" (Node.key "ID_A1" "EXIT") ["KEY_A1"]]) ∧
    countGates (Node.branch "ID_D1" [Node.key "ID_C1" "KEY_A1",
      Node.gate "ID_B1" (Node.key "ID_A1" "EXIT") ["KEY_A1"]]) = 1 :=
  ⟨claim_C1.1 1 constFalse (Node.branch "ID_D1" [Node.key "ID_C1" "KEY_A1",
      Node.gate "ID_B1" (Node.key "ID_A1" "EXIT") ["KEY_A1"]]) ⟨4, 1, 1, 1, constFalse, 1⟩ rfl,
   claim_C1.2 1 (Node.branch "ID_D1" [Node.key "ID_C1" "KEY_A1",
      Node.gate "ID_B1" (Node.key "ID_A1" "EXIT") ["KEY_A1"]]) ⟨4, 1, 1, 1, constFalse, 1⟩ rfl⟩

theorem reqVals_mem {t n : Node} {i : String} {d : Node} {r : List String}
    (hn : n ∈ nodesOf t) (hg : n = Node.gate i d r) {v : String} (hv : v ∈ r) :
    v ∈ reqVals t := by
  subst hg
  refine List.mem_flatten.mpr ⟨r, ?_, hv⟩
  refine List.mem_map.mpr ⟨Node.gate i d r, hn, ?_⟩
  simp [reqsOf]

/-- **C2.** In any run (any quota, any randomness) every gate of the
resulting tree has exactly one requirement; exactly one `KeyNode` of the
whole tree carries that value, and it does not lie inside the gate's own
destination sub-tree. -/
theorem claim_C2 :
    ∀ (q : Int) (rng : Nat → Bool) (t : Node) (st' : GenState),
      runMain q rng = some (t, st') →
      ∀ n ∈ nodesOf t, ∀ i d r, n = Node.gate i d r →
        ∃ v, r = [v] ∧ (keyVals t).count v = 1 ∧ v ∉ keyVals d := by
  intro q rng t st' h n hn i d r hg
  obtain ⟨-, -, -, hKV, hRQ, hWF, -⟩ := runMain_post h
  rw [runMain_kidx0] at hKV hRQ
  obtain ⟨-, -, hlocal, hone, -⟩ := hWF
  have hr1 : r.length = 1 := hone n hn i d r hg
  obtain ⟨v, hv⟩ : ∃ v, r = [v] := by
    cases r with
    | nil => simp at hr1
    | cons v rest =>
      cases rest with
      | nil => exact ⟨v, rfl⟩
      | cons _ _ => simp at hr1
  refine ⟨v, hv, ?_, ?_⟩
  · -- v occurs in the requirement multiset, hence among the fresh values
    have hvreq : v ∈ reqVals t := reqVals_mem hn hg (by simp [hv])
    have hvnew : v ∈ newKeys 0 (kidx st') := by
      have := congrArg (Multiset.count v) hRQ
      rw [reqVals_key] at this
      simp only [Multiset.count_add, Multiset.coe_count] at this
      have hpos : 0 < (reqVals t).count v := List.count_pos_iff.mpr hvreq
      have : 0 < (newKeys 0 (kidx st')).count v := by
        have hz : List.count v ([] : List String) = 0 := rfl
        omega
      exact List.count_pos_iff.mp this
    have hcount := congrArg (Multiset.count v) hKV
    rw [keyVals_key] at hcount
    simp only [TreeConfig.pyInit, keyValsList_nil, Multiset.count_add,
      Multiset.coe_count] at hcount
    have hnotexit : v ≠ "EXIT" := by
      intro hve
      subst hve
      exact exit_not_mem_newKeys 0 (kidx st') hvnew
    have hexitcount : (["EXIT"] : List String).count v = 0 := by
      simp [List.count_singleton]
      intro hc
      exact hnotexit hc.symm
    have hnewcount : (newKeys 0 (kidx st')).count v = 1 := by
      have hle := List.nodup_iff_count_le_one.mp (newKeys_nodup 0 (kidx st')) v
      have hpos := List.count_pos_iff.mpr hvnew
      omega
    rw [hexitcount, hnewcount] at hcount
    have hz : List.count v ([] : List String) = 0 := rfl
    omega
  · -- locality: the matching key node is outside the destination sub-tree
    exact hlocal n hn i d r hg v (by simp [hv])

/-- Witness for C2 on the one-gate run. -/
theorem claim_C2_witness :
    ∃ v, (["KEY_A1"] : List String) = [v] ∧
      (keyVals (Node.branch "ID_D1" [Node.key "ID_C1" "KEY_A1",
        Node.gate "ID_B1" (Node.key "ID_A1" "EXIT") ["KEY_A1"]])).count v = 1 ∧
      v ∉ keyVals (Node.key "ID_A1" "EXIT") :=
  claim_C2 1 constFalse (Node.branch "ID_D1" [Node.key "ID_C1" "KEY_A1",
      Node.gate "ID_B1" (Node.key "ID_A1" "EXIT") ["KEY_A1"]]) ⟨4, 1, 1, 1, constFalse, 1⟩ rfl
    (Node.gate "ID_B1" (Node.key "ID_A1" "EXIT") ["KEY_A1"])
    (by simp [nodesOf, nodesOfList]) "ID_B1" (Node.key "ID_A1" "EXIT") ["KEY_A1"] rfl

/-- **C5.** Every `BranchNode` in a generated tree has at least two paths,
and `generate_node_with_branches` returns a singleton branch list's sole
element unchanged instead of wrapping it. -/
theorem claim_C5 :
    (∀ (q : Int) (rng : Nat → Bool) (t : Node) (st' : GenState),
        runMain q rng = some (t, st') →
        ∀ n ∈ nodesOf t, ∀ i ps, n = Node.branch i ps → 2 ≤ ps.length) ∧
    (∀ (b : Node) (st : GenState),
        generate_node_with_branches [b] st = some (b, st)) := by
  constructor
  · intro q rng t st' h
    obtain ⟨-, -, -, -, -, hWF, -⟩ := runMain_post h
    exact hWF.2.2.2.2
  · intro b st
    rfl

/-- Witness for C5: the one-gate run's root branch has two children, and
collapsing a singleton returns it unchanged. -/
theorem claim_C5_witness :
    2 ≤ ([Node.key "ID_C1" "KEY_A1",
      Node.gate "ID_B1" (Node.key "ID_A1" "EXIT") ["KEY_A1"]] : List Node).length :=
  claim_C5.1 1 constFalse
    (Node.branch "ID_D1" [Node.key "ID_C1" "KEY_A1",
      Node.gate "ID_B1" (Node.key "ID_A1" "EXIT") ["KEY_A1"]])
    ⟨4, 1, 1, 1, constFalse, 1⟩ rfl
    (Node.branch "ID_D1" [Node.key "ID_C1" "KEY_A1",
      Node.gate "ID_B1" (Node.key "ID_A1" "EXIT") ["KEY_A1"]])
    (by simp [nodesOf]) "ID_D1" _ rfl

/-- **C6.** In any run the key values of the tree's `KeyNode`s are pairwise
distinct: the generated values are drawn from a strictly advancing counter
and the destination sentinel `"EXIT"` never collides with them (the sentinel
is itself among the tree's key values, so `Nodup` covers that separation). -/
theorem claim_C6 :
    ∀ (q : Int) (rng : Nat → Bool) (t : Node) (st' : GenState),
      runMain q rng = some (t, st') →
      (keyVals t).Nodup ∧ "EXIT" ∈ keyVals t := by
  intro q rng t st' h
  obtain ⟨-, -, -, hKV, -, -, -⟩ := runMain_post h
  rw [runMain_kidx0] at hKV
  rw [keyVals_key] at hKV
  simp only [TreeConfig.pyInit, keyValsList_nil] at hKV
  have hperm : (keyVals t).Perm ("EXIT" :: newKeys 0 (kidx st')) := by
    have : (keyVals t : Multiset String) = ↑("EXIT" :: newKeys 0 (kidx st')) := by
      rw [hKV]
      rw [Multiset.ext]
      intro a
      simp only [← Multiset.coe_add, Multiset.count_add, Multiset.coe_count]
      simp only [List.count_nil, List.count_append, List.count_cons, List.count_singleton]
      omega
    exact Multiset.coe_eq_coe.mp this
  refine ⟨hperm.symm.nodup (List.nodup_cons.mpr
    ⟨exit_not_mem_newKeys 0 (kidx st'), newKeys_nodup 0 (kidx st')⟩), ?_⟩
  exact hperm.mem_iff.mpr (by simp)

/-- Witness for C6 on the one-gate run. -/
theorem claim_C6_witness :
    (keyVals (Node.branch "ID_D1" [Node.key "ID_C1" "KEY_A1",
      Node.gate "ID_B1" (Node.key "ID_A1" "EXIT") ["KEY_A1"]])).Nodup ∧
    "EXIT" ∈ keyVals (Node.branch "ID_D1" [Node.key "ID_C1" "KEY_A1",
      Node.gate "ID_B1" (Node.key "ID_A1" "EXIT") ["KEY_A1"]]) :=
  claim_C6 1 constFalse (Node.branch "ID_D1" [Node.key "ID_C1" "KEY_A1",
      Node.gate "ID_B1" (Node.key "ID_A1" "EXIT") ["KEY_A1"]]) ⟨4, 1, 1, 1, constFalse, 1⟩ rfl

end ExplorationTree
